import Mathlib

/-!
Verification of the question-assembly and persistence core of the pdfsplit
repository: the box normalizer, the logical-question grouper, the canvas
trimmers, the worker pool bookkeeping and the chunked store, shallowly
embedded in Lean from the TypeScript/JavaScript sources.
-/

set_option maxHeartbeats 1000000

namespace PdfSplit

/-- A JavaScript-like dynamic value. Detection box payloads (`boxes_2d`) are
`number[] | number[][]` at runtime and typed `any` at the normalization
boundary, so we embed them as dynamic values. -/
inductive JVal where
  | num (q : Int)
  | str (s : String)
  | arr (elems : List JVal)
  | jsUndefined
  | jsNull

/-- A JavaScript runtime exception. -/
inductive JsException where
  | typeError

/-- `Array.isArray(v)`. -/
def JVal.isArr : JVal → Bool
  | .arr _ => true
  | _ => false

/-- `v[0]` in JavaScript: element lookup on an array (`undefined` when
empty), the first character of a string (`undefined` for the empty string),
`undefined` for property access on a number — but a thrown `TypeError` when
`v` itself is `undefined` or `null`. -/
def jsIndex0 : JVal → Except JsException JVal
  | .arr (x :: _) => .ok x
  | .arr [] => .ok .jsUndefined
  | .str s =>
    match s.data with
    | [] => .ok .jsUndefined
    | c :: _ => .ok (.str (String.mk [c]))
  | .num _ => .ok .jsUndefined
  | .jsUndefined => .error .typeError
  | .jsNull => .error .typeError

/-- `normalizeBoxes` (identical in `src/services/storageService.ts` and
`src/App.tsx`): evaluates `boxes2d[0]` — which throws a `TypeError` when
`boxes2d` is `undefined` or `null` — then returns the input unchanged when
`Array.isArray(boxes2d[0])`, and otherwise wraps it into a one-element
array. -/
def normalizeBoxes (boxes2d : JVal) : Except JsException JVal :=
  match jsIndex0 boxes2d with
  | .error e => .error e
  | .ok v => if v.isArr then .ok boxes2d else .ok (.arr [boxes2d])

/-- `DetectedQuestion`: an id (a question label or the sentinel
`"continuation"`) together with its box payload. -/
structure DetectedQuestion where
  id : String
  boxes_2d : JVal

/-- `DebugPageData`, restricted to the fields the core manipulates. -/
structure DebugPageData where
  fileName : String
  pageNumber : Nat
  width : Nat
  height : Nat
  dataUrl : Option String
  detections : List DetectedQuestion

/-- One element of `LogicalQuestion.parts`. -/
structure QuestionPart where
  pageObj : DebugPageData
  detection : DetectedQuestion
  indexInFile : Nat

/-- `LogicalQuestion` from `src/services/storageService.ts`. -/
structure LogicalQuestion where
  id : String
  fileId : String
  parts : List QuestionPart

/-- Append page `p` to the bucket of its file, creating the bucket at the end
when absent. Models one `files` `Map` update in `createLogicalQuestions`
(JS `Map` iteration preserves first-insertion order of keys). -/
def insertPage (acc : List (String × List DebugPageData)) (p : DebugPageData) :
    List (String × List DebugPageData) :=
  match acc with
  | [] => [(p.fileName, [p])]
  | (f, ps) :: rest =>
    if p.fileName = f then (f, ps ++ [p]) :: rest else (f, ps) :: insertPage rest p

/-- The `files` map of `createLogicalQuestions`, as an association list in key
insertion order. -/
def groupByFile (pages : List DebugPageData) : List (String × List DebugPageData) :=
  pages.foldl insertPage []

/-- Page ordering used by `filePages.sort((a,b) => a.pageNumber - b.pageNumber)`. -/
def pageLe (a b : DebugPageData) : Prop := a.pageNumber ≤ b.pageNumber

instance : DecidableRel pageLe := fun a b => Nat.decLe a.pageNumber b.pageNumber

/-- Stable sort of a file's pages by page number (JS `Array.prototype.sort`
is stable; insertion sort is the stable sort of the same key order). -/
def sortPages (ps : List DebugPageData) : List DebugPageData :=
  List.insertionSort pageLe ps

/-- The stream of `(page, indexInPage, detection)` triples visited by the two
nested loops of `createLogicalQuestions`, pages in the given order and
detections in model-assigned order (`page.detections.entries()`). -/
def detStream (ps : List DebugPageData) : List (DebugPageData × Nat × DetectedQuestion) :=
  (ps.map (fun p => p.detections.enum.map (fun e => (p, e.1, e.2)))).flatten

/-- One iteration of the detection loop of `createLogicalQuestions`. The
accumulator holds the current file's logical questions most-recent-first;
its head plays the role of `currentQ` (in the source, `currentQ` is always
the most recently pushed question of the current file and is mutated in
place when a continuation is absorbed). -/
def groupStep (fileId : String) (acc : List LogicalQuestion)
    (t : DebugPageData × Nat × DetectedQuestion) : List LogicalQuestion :=
  let part : QuestionPart := ⟨t.1, t.2.2, t.2.1⟩
  if t.2.2.id = "continuation" then
    match acc with
    | [] =>
      [⟨"cont_" ++ toString t.1.pageNumber ++ "_" ++ toString t.2.1, fileId, [part]⟩]
    | q :: rest => ⟨q.id, q.fileId, q.parts ++ [part]⟩ :: rest
  else ⟨t.2.2.id, fileId, [part]⟩ :: acc

/-- Processing of one file's sorted pages in `createLogicalQuestions`:
`currentQ` starts as `null` (empty accumulator) for each file. -/
def processFilePages (fileId : String) (ps : List DebugPageData) : List LogicalQuestion :=
  ((detStream ps).foldl (groupStep fileId) []).reverse

/-- `createLogicalQuestions` (src/services/storageService.ts): group pages by
file, sort each file's pages by page number, then walk detections merging
continuations into the current question. -/
def createLogicalQuestions (pages : List DebugPageData) : List LogicalQuestion :=
  ((groupByFile pages).map (fun fp => processFilePages fp.1 (sortPages fp.2))).flatten

/-- C1: two pages of one file, page 1 carrying detection `"5"` and page 2
carrying detection `"continuation"`, group into exactly one LogicalQuestion
with id `"5"` and two parts in page order. -/
theorem continuation_absorption (f : String) (b1 b2 : JVal)
    (w1 h1 w2 h2 : Nat) (u1 u2 : Option String) :
    createLogicalQuestions
      [⟨f, 1, w1, h1, u1, [⟨"5", b1⟩]⟩, ⟨f, 2, w2, h2, u2, [⟨"continuation", b2⟩]⟩] =
    [⟨"5", f,
      [⟨⟨f, 1, w1, h1, u1, [⟨"5", b1⟩]⟩, ⟨"5", b1⟩, 0⟩,
       ⟨⟨f, 2, w2, h2, u2, [⟨"continuation", b2⟩]⟩, ⟨"continuation", b2⟩, 0⟩]⟩] := by
  simp [createLogicalQuestions, groupByFile, insertPage, sortPages, List.insertionSort,
        List.orderedInsert, processFilePages, detStream, groupStep, List.enum,
        List.enumFrom, pageLe]

/-! ### Grouper: membership and orphan-continuation lemmas -/

/-- The detection fragment `pt` appears among the parts of one of the logical
questions in `qs`. -/
def PartIn (pt : QuestionPart) (qs : List LogicalQuestion) : Prop :=
  ∃ q ∈ qs, pt ∈ q.parts

theorem groupStep_cons_cont (f : String) (q : LogicalQuestion)
    (rest : List LogicalQuestion) (t : DebugPageData × Nat × DetectedQuestion)
    (hc : t.2.2.id = "continuation") :
    groupStep f (q :: rest) t = ⟨q.id, q.fileId, q.parts ++ [⟨t.1, t.2.2, t.2.1⟩]⟩ :: rest := by
  simp [groupStep, hc]

theorem groupStep_nil_cont (f : String) (t : DebugPageData × Nat × DetectedQuestion)
    (hc : t.2.2.id = "continuation") :
    groupStep f [] t =
      [⟨"cont_" ++ toString t.1.pageNumber ++ "_" ++ toString t.2.1, f, [⟨t.1, t.2.2, t.2.1⟩]⟩] := by
  simp [groupStep, hc]

theorem groupStep_new (f : String) (acc : List LogicalQuestion)
    (t : DebugPageData × Nat × DetectedQuestion) (hc : ¬ t.2.2.id = "continuation") :
    groupStep f acc t = ⟨t.2.2.id, f, [⟨t.1, t.2.2, t.2.1⟩]⟩ :: acc := by
  simp [groupStep, hc]

theorem partIn_groupStep (f : String) (acc : List LogicalQuestion)
    (t : DebugPageData × Nat × DetectedQuestion) (pt : QuestionPart)
    (h : PartIn pt acc) : PartIn pt (groupStep f acc t) := by
  obtain ⟨q, hq, hpt⟩ := h
  unfold groupStep
  by_cases hc : t.2.2.id = "continuation"
  · simp only [hc, if_true]
    cases acc with
    | nil => cases hq
    | cons q1 rest =>
      rcases List.mem_cons.mp hq with h1 | h1
      · subst h1
        exact ⟨_, List.mem_cons_self _ _, by simp [hpt]⟩
      · exact ⟨q, List.mem_cons_of_mem _ h1, hpt⟩
  · simp only [hc, if_false]
    exact ⟨q, List.mem_cons_of_mem _ hq, hpt⟩

theorem partIn_groupStep_self (f : String) (acc : List LogicalQuestion)
    (t : DebugPageData × Nat × DetectedQuestion) :
    PartIn ⟨t.1, t.2.2, t.2.1⟩ (groupStep f acc t) := by
  unfold groupStep
  by_cases hc : t.2.2.id = "continuation"
  · simp only [hc, if_true]
    cases acc with
    | nil => exact ⟨_, List.mem_singleton.mpr rfl, List.mem_singleton.mpr rfl⟩
    | cons q1 rest => exact ⟨_, List.mem_cons_self _ _, by simp⟩
  · simp only [hc, if_false]
    exact ⟨_, List.mem_cons_self _ _, List.mem_singleton.mpr rfl⟩

theorem partIn_foldl (f : String) (s : List (DebugPageData × Nat × DetectedQuestion))
    (acc : List LogicalQuestion) (pt : QuestionPart) (h : PartIn pt acc) :
    PartIn pt (s.foldl (groupStep f) acc) := by
  induction s generalizing acc with
  | nil => exact h
  | cons t s ih => exact ih _ (partIn_groupStep f acc t pt h)

theorem partIn_foldl_mem (f : String) (s : List (DebugPageData × Nat × DetectedQuestion))
    (acc : List LogicalQuestion) (t : DebugPageData × Nat × DetectedQuestion)
    (ht : t ∈ s) : PartIn ⟨t.1, t.2.2, t.2.1⟩ (s.foldl (groupStep f) acc) := by
  induction s generalizing acc with
  | nil => cases ht
  | cons u s ih =>
    rcases List.mem_cons.mp ht with h1 | h1
    · subst h1
      exact partIn_foldl f s _ _ (partIn_groupStep_self f acc t)
    · exact ih (groupStep f acc u) h1

theorem mem_detStream (ps : List DebugPageData) (p : DebugPageData) (hp : p ∈ ps)
    (i : Nat) (d : DetectedQuestion) (hd : (i, d) ∈ p.detections.enum) :
    (p, i, d) ∈ detStream ps := by
  unfold detStream
  exact List.mem_flatten.mpr
    ⟨_, List.mem_map_of_mem _ hp, List.mem_map_of_mem (fun e => (p, e.1, e.2)) hd⟩

theorem insertPage_mem_preserve (acc : List (String × List DebugPageData))
    (q p' : DebugPageData) (f : String) (ps : List DebugPageData)
    (h : (f, ps) ∈ acc) (hp : p' ∈ ps) :
    ∃ ps', (f, ps') ∈ insertPage acc q ∧ p' ∈ ps' := by
  induction acc with
  | nil => cases h
  | cons hd tl ih =>
    obtain ⟨g, gs⟩ := hd
    unfold insertPage
    by_cases hq : q.fileName = g
    · simp only [hq, if_true]
      rcases List.mem_cons.mp h with h1 | h1
      · have hf : f = g := congrArg Prod.fst h1
        have hps : ps = gs := congrArg Prod.snd h1
        subst hf; subst hps
        exact ⟨ps ++ [q], List.mem_cons_self _ _, List.mem_append_left _ hp⟩
      · exact ⟨ps, List.mem_cons_of_mem _ h1, hp⟩
    · simp only [hq, if_false]
      rcases List.mem_cons.mp h with h1 | h1
      · exact ⟨ps, h1 ▸ List.mem_cons_self _ _, hp⟩
      · obtain ⟨ps', h', hp'⟩ := ih h1
        exact ⟨ps', List.mem_cons_of_mem _ h', hp'⟩

theorem insertPage_mem_self (acc : List (String × List DebugPageData))
    (q : DebugPageData) : ∃ ps', (q.fileName, ps') ∈ insertPage acc q ∧ q ∈ ps' := by
  induction acc with
  | nil => exact ⟨[q], List.mem_singleton.mpr rfl, List.mem_singleton.mpr rfl⟩
  | cons hd tl ih =>
    obtain ⟨g, gs⟩ := hd
    unfold insertPage
    by_cases hq : q.fileName = g
    · simp only [hq, if_true]
      exact ⟨gs ++ [q], hq ▸ List.mem_cons_self _ _, List.mem_append_right _ (List.mem_singleton.mpr rfl)⟩
    · simp only [hq, if_false]
      obtain ⟨ps', h', hp'⟩ := ih
      exact ⟨ps', List.mem_cons_of_mem _ h', hp'⟩

theorem foldl_insertPage_preserve (l : List DebugPageData)
    (acc : List (String × List DebugPageData)) (f : String)
    (ps : List DebugPageData) (p' : DebugPageData)
    (h : (f, ps) ∈ acc) (hp : p' ∈ ps) :
    ∃ ps', (f, ps') ∈ l.foldl insertPage acc ∧ p' ∈ ps' := by
  induction l generalizing acc ps with
  | nil => exact ⟨ps, h, hp⟩
  | cons q l ih =>
    obtain ⟨ps', h', hp'⟩ := insertPage_mem_preserve acc q p' f ps h hp
    exact ih _ _ h' hp'

theorem mem_groupByFile (pages : List DebugPageData) (p : DebugPageData)
    (hp : p ∈ pages) : ∃ ps, (p.fileName, ps) ∈ groupByFile pages ∧ p ∈ ps := by
  suffices h : ∀ (l : List DebugPageData) (acc : List (String × List DebugPageData)),
      p ∈ l → ∃ ps, (p.fileName, ps) ∈ l.foldl insertPage acc ∧ p ∈ ps by
    exact h pages [] hp
  intro l
  induction l with
  | nil => intro acc h; cases h
  | cons q l ih =>
    intro acc h
    rcases List.mem_cons.mp h with h1 | h1
    · subst h1
      obtain ⟨ps', h', hp'⟩ := insertPage_mem_self acc p
      exact foldl_insertPage_preserve l _ _ _ _ h' hp'
    · exact ih _ h1

theorem mem_createLogicalQuestions_of (pages : List DebugPageData) (f : String)
    (ps : List DebugPageData) (q : LogicalQuestion)
    (hf : (f, ps) ∈ groupByFile pages)
    (hq : q ∈ processFilePages f (sortPages ps)) :
    q ∈ createLogicalQuestions pages := by
  unfold createLogicalQuestions
  exact List.mem_flatten.mpr ⟨_, List.mem_map_of_mem _ hf, hq⟩

/-- The last question of the (reversed) accumulator has the given identity and
first part; this is the invariant carried by the orphan-continuation proof. -/
def LastIs (cid fid : String) (pt : QuestionPart) (acc : List LogicalQuestion) : Prop :=
  ∃ qs q, acc = qs ++ [q] ∧ q.id = cid ∧ q.fileId = fid ∧ q.parts.head? = some pt

theorem lastIs_groupStep (f cid fid : String) (pt : QuestionPart)
    (acc : List LogicalQuestion) (t : DebugPageData × Nat × DetectedQuestion)
    (h : LastIs cid fid pt acc) : LastIs cid fid pt (groupStep f acc t) := by
  obtain ⟨qs, q, rfl, hid, hfid, hhead⟩ := h
  by_cases hc : t.2.2.id = "continuation"
  · cases qs with
    | nil =>
      rw [List.nil_append, groupStep_cons_cont f q [] t hc]
      refine ⟨[], ⟨q.id, q.fileId, q.parts ++ [⟨t.1, t.2.2, t.2.1⟩]⟩, by simp, hid, hfid, ?_⟩
      cases hq : q.parts with
      | nil => rw [hq] at hhead; cases hhead
      | cons a l =>
        rw [hq] at hhead
        simp only [List.head?_cons, Option.some.injEq] at hhead
        simpa using hhead
    | cons q1 qs' =>
      rw [List.cons_append, groupStep_cons_cont f q1 (qs' ++ [q]) t hc]
      exact ⟨⟨q1.id, q1.fileId, q1.parts ++ [⟨t.1, t.2.2, t.2.1⟩]⟩ :: qs', q, by simp, hid, hfid, hhead⟩
  · rw [groupStep_new f (qs ++ [q]) t hc]
    exact ⟨⟨t.2.2.id, f, [⟨t.1, t.2.2, t.2.1⟩]⟩ :: qs, q, by simp, hid, hfid, hhead⟩

theorem lastIs_foldl (f cid fid : String) (pt : QuestionPart)
    (s : List (DebugPageData × Nat × DetectedQuestion)) (acc : List LogicalQuestion)
    (h : LastIs cid fid pt acc) : LastIs cid fid pt (s.foldl (groupStep f) acc) := by
  induction s generalizing acc with
  | nil => exact h
  | cons t s ih => exact ih _ (lastIs_groupStep f cid fid pt acc t h)

/-- A run of continuation detections folded onto a singleton accumulator is
absorbed, in order, into that single question: no step of the run creates a
question of its own. -/
theorem foldl_cont_run (f : String) :
    ∀ (cs : List (DebugPageData × Nat × DetectedQuestion)) (q : LogicalQuestion),
      (∀ t ∈ cs, t.2.2.id = "continuation") →
      cs.foldl (groupStep f) [q] =
        [⟨q.id, q.fileId, q.parts ++ cs.map (fun t => ⟨t.1, t.2.2, t.2.1⟩)⟩] := by
  intro cs
  induction cs with
  | nil => intro q _; simp
  | cons c cs ih =>
    intro q hc
    rw [List.foldl_cons, groupStep_cons_cont f q [] c (hc c (List.mem_cons_self _ _))]
    rw [ih _ (fun t ht => hc t (List.mem_cons_of_mem _ ht))]
    simp

/-- Once the accumulator holds at least two questions, its last element (the
file's first-created question) is never modified again by the fold. -/
theorem foldl_fixed_last (f : String) :
    ∀ (s : List (DebugPageData × Nat × DetectedQuestion))
      (qs : List LogicalQuestion) (q1 : LogicalQuestion), qs ≠ [] →
      ∃ qs', qs' ≠ [] ∧ s.foldl (groupStep f) (qs ++ [q1]) = qs' ++ [q1] := by
  intro s
  induction s with
  | nil => intro qs q1 h; exact ⟨qs, h, rfl⟩
  | cons t s ih =>
    intro qs q1 h
    rw [List.foldl_cons]
    by_cases hc : t.2.2.id = "continuation"
    · cases qs with
      | nil => exact absurd rfl h
      | cons y ys =>
        rw [List.cons_append, groupStep_cons_cont f y (ys ++ [q1]) t hc,
          ← List.cons_append]
        exact ih (⟨y.id, y.fileId, y.parts ++ [⟨t.1, t.2.2, t.2.1⟩]⟩ :: ys) q1 (by simp)
    · rw [groupStep_new f (qs ++ [q1]) t hc, ← List.cons_append]
      exact ih (⟨t.2.2.id, f, [⟨t.1, t.2.2, t.2.1⟩]⟩ :: qs) q1 (by simp)

/-- Every question of the accumulator other than the last (file-first) one
starts with a non-continuation part: only the file's first question can be a
synthetic orphan. -/
def NonContInner (acc : List LogicalQuestion) : Prop :=
  ∀ q ∈ acc.dropLast, ∃ pt tl, q.parts = pt :: tl ∧ pt.detection.id ≠ "continuation"

theorem nonContInner_groupStep (f : String) (acc : List LogicalQuestion)
    (t : DebugPageData × Nat × DetectedQuestion) (h : NonContInner acc) :
    NonContInner (groupStep f acc t) := by
  by_cases hc : t.2.2.id = "continuation"
  · cases acc with
    | nil =>
      rw [groupStep_nil_cont f t hc]
      intro q hq
      simp at hq
    | cons q rest =>
      rw [groupStep_cons_cont f q rest t hc]
      cases rest with
      | nil =>
        intro x hx
        simp at hx
      | cons r rs =>
        intro x hx
        rw [List.dropLast_cons₂] at hx
        rcases List.mem_cons.mp hx with h1 | h1
        · subst h1
          obtain ⟨pt, tl, hparts, hpt⟩ :=
            h q (by rw [List.dropLast_cons₂]; exact List.mem_cons_self _ _)
          exact ⟨pt, tl ++ [⟨t.1, t.2.2, t.2.1⟩], by simp [hparts], hpt⟩
        · exact h x (by rw [List.dropLast_cons₂]; exact List.mem_cons_of_mem _ h1)
  · rw [groupStep_new f acc t hc]
    cases acc with
    | nil => intro x hx; simp at hx
    | cons q rest =>
      intro x hx
      rw [List.dropLast_cons₂] at hx
      rcases List.mem_cons.mp hx with h1 | h1
      · subst h1
        exact ⟨⟨t.1, t.2.2, t.2.1⟩, [], rfl, hc⟩
      · exact h x h1

theorem nonContInner_foldl (f : String)
    (s : List (DebugPageData × Nat × DetectedQuestion)) :
    ∀ acc, NonContInner acc → NonContInner (s.foldl (groupStep f) acc) := by
  induction s with
  | nil => intro acc h; exact h
  | cons t s ih => intro acc h; exact ih _ (nonContInner_groupStep f acc t h)

/-- C2 (amended): (a) when the page-ordered detection stream of file `f`
starts with a maximal run of continuations — a continuation on page `p` at
in-page index `i` followed by the continuations `cs`, with the remainder
empty or starting with a non-continuation — the file's first output question
is exactly one synthetic LogicalQuestion with id `"cont_{p.pageNumber}_{i}"`
whose parts are precisely the run's fragments in order: the later leading
continuations are appended to it instead of getting their own synthetic
question; (b) orphan synthesis only happens at a file's first question —
every output question of a file other than the first starts with a
non-continuation part; (c) no detection of the input is absent from the
output's parts. -/
theorem orphan_continuation_amended :
    (∀ (pages : List DebugPageData) (f : String) (ps : List DebugPageData)
        (p : DebugPageData) (i : Nat) (d : DetectedQuestion)
        (cs rest : List (DebugPageData × Nat × DetectedQuestion)),
      (f, ps) ∈ groupByFile pages →
      detStream (sortPages ps) = (p, i, d) :: (cs ++ rest) →
      d.id = "continuation" →
      (∀ t ∈ cs, t.2.2.id = "continuation") →
      (rest = [] ∨ ∃ t0 rest', rest = t0 :: rest' ∧ t0.2.2.id ≠ "continuation") →
      ∃ q, (processFilePages f (sortPages ps)).head? = some q ∧
        q ∈ createLogicalQuestions pages ∧
        q.id = "cont_" ++ toString p.pageNumber ++ "_" ++ toString i ∧
        q.fileId = f ∧
        q.parts = ⟨p, d, i⟩ :: cs.map (fun t => ⟨t.1, t.2.2, t.2.1⟩)) ∧
    (∀ (f : String) (ps : List DebugPageData) (q0 : LogicalQuestion)
        (qs : List LogicalQuestion),
      processFilePages f ps = q0 :: qs →
      ∀ q ∈ qs, ∃ pt tl, q.parts = pt :: tl ∧ pt.detection.id ≠ "continuation") ∧
    (∀ (pages : List DebugPageData) (p : DebugPageData), p ∈ pages →
      ∀ (i : Nat) (d : DetectedQuestion), (i, d) ∈ p.detections.enum →
      ∃ q ∈ createLogicalQuestions pages, (⟨p, d, i⟩ : QuestionPart) ∈ q.parts) := by
  refine ⟨?_, ?_, ?_⟩
  · intro pages f ps p i d cs rest hf hs hd hcs hmax
    have h0 : groupStep f [] (p, i, d) =
        [⟨"cont_" ++ toString p.pageNumber ++ "_" ++ toString i, f, [⟨p, d, i⟩]⟩] := by
      simp [groupStep, hd]
    have hrun : cs.foldl (groupStep f)
        [⟨"cont_" ++ toString p.pageNumber ++ "_" ++ toString i, f, [⟨p, d, i⟩]⟩] =
        [⟨"cont_" ++ toString p.pageNumber ++ "_" ++ toString i, f,
          ⟨p, d, i⟩ :: cs.map (fun t => ⟨t.1, t.2.2, t.2.1⟩)⟩] := by
      rw [foldl_cont_run f cs _ hcs]
      rfl
    rcases hmax with hrest | ⟨t0, rest', hrest, ht0⟩
    · subst hrest
      have hacc : (detStream (sortPages ps)).foldl (groupStep f) [] =
          [⟨"cont_" ++ toString p.pageNumber ++ "_" ++ toString i, f,
            ⟨p, d, i⟩ :: cs.map (fun t => ⟨t.1, t.2.2, t.2.1⟩)⟩] := by
        rw [hs, List.foldl_cons, h0, List.append_nil, hrun]
      refine ⟨⟨"cont_" ++ toString p.pageNumber ++ "_" ++ toString i, f,
        ⟨p, d, i⟩ :: cs.map (fun t => ⟨t.1, t.2.2, t.2.1⟩)⟩, ?_, ?_, rfl, rfl, rfl⟩
      · unfold processFilePages
        rw [hacc]
        simp
      · apply mem_createLogicalQuestions_of pages f ps _ hf
        unfold processFilePages
        rw [hacc]
        simp
    · subst hrest
      obtain ⟨qs', hne, hfin⟩ := foldl_fixed_last f rest'
        [⟨t0.2.2.id, f, [⟨t0.1, t0.2.2, t0.2.1⟩]⟩]
        ⟨"cont_" ++ toString p.pageNumber ++ "_" ++ toString i, f,
          ⟨p, d, i⟩ :: cs.map (fun t => ⟨t.1, t.2.2, t.2.1⟩)⟩ (by simp)
      have hacc : (detStream (sortPages ps)).foldl (groupStep f) [] =
          qs' ++ [⟨"cont_" ++ toString p.pageNumber ++ "_" ++ toString i, f,
            ⟨p, d, i⟩ :: cs.map (fun t => ⟨t.1, t.2.2, t.2.1⟩)⟩] := by
        rw [hs, List.foldl_cons, h0, List.foldl_append, hrun, List.foldl_cons,
          groupStep_new f _ t0 ht0]
        exact hfin
      refine ⟨⟨"cont_" ++ toString p.pageNumber ++ "_" ++ toString i, f,
        ⟨p, d, i⟩ :: cs.map (fun t => ⟨t.1, t.2.2, t.2.1⟩)⟩, ?_, ?_, rfl, rfl, rfl⟩
      · unfold processFilePages
        rw [hacc]
        simp
      · apply mem_createLogicalQuestions_of pages f ps _ hf
        unfold processFilePages
        rw [hacc]
        simp
  · intro f ps q0 qs hout q hq
    have hinv : NonContInner ((detStream ps).foldl (groupStep f) []) :=
      nonContInner_foldl f _ [] (by intro x hx; simp at hx)
    have hacc : (detStream ps).foldl (groupStep f) [] = qs.reverse ++ [q0] := by
      have h1 : ((detStream ps).foldl (groupStep f) []).reverse = q0 :: qs := hout
      rw [← List.reverse_reverse ((detStream ps).foldl (groupStep f) []), h1,
        List.reverse_cons]
    rw [hacc] at hinv
    apply hinv
    rw [List.dropLast_concat]
    exact List.mem_reverse.mpr hq
  · intro pages p hp i d hd
    obtain ⟨ps, hf, hps⟩ := mem_groupByFile pages p hp
    have hsort : p ∈ sortPages ps := by
      unfold sortPages
      exact (List.perm_insertionSort pageLe ps).mem_iff.mpr hps
    have hstream : (p, i, d) ∈ detStream (sortPages ps) := mem_detStream _ p hsort i d hd
    have hin : PartIn ⟨p, d, i⟩ (((detStream (sortPages ps)).foldl (groupStep p.fileName) [])) :=
      partIn_foldl_mem p.fileName _ [] (p, i, d) hstream
    obtain ⟨q, hq, hpt⟩ := hin
    refine ⟨q, mem_createLogicalQuestions_of pages p.fileName ps q hf ?_, hpt⟩
    unfold processFilePages
    simpa using hq

/-- C2 counterexample: with two leading continuations on page 1 of file
`"A"`, the second continuation also appears before any non-continuation
detection of its file, yet it gets no synthetic LogicalQuestion of its own
(id `"cont_1_1"`): it is absorbed into the synthetic question `"cont_1_0"`
created for the first fragment. -/
theorem orphan_continuation_counterexample :
    createLogicalQuestions
      [⟨"A", 1, 100, 100, none, [⟨"continuation", .jsUndefined⟩, ⟨"continuation", .jsUndefined⟩]⟩] =
      [⟨"cont_1_0", "A",
        [⟨⟨"A", 1, 100, 100, none, [⟨"continuation", .jsUndefined⟩, ⟨"continuation", .jsUndefined⟩]⟩,
          ⟨"continuation", .jsUndefined⟩, 0⟩,
         ⟨⟨"A", 1, 100, 100, none, [⟨"continuation", .jsUndefined⟩, ⟨"continuation", .jsUndefined⟩]⟩,
          ⟨"continuation", .jsUndefined⟩, 1⟩]⟩] ∧
    ∀ q ∈ createLogicalQuestions
      [⟨"A", 1, 100, 100, none, [⟨"continuation", .jsUndefined⟩, ⟨"continuation", .jsUndefined⟩]⟩],
      q.id ≠ "cont_1_1" := by
  have h : createLogicalQuestions
      [⟨"A", 1, 100, 100, none, [⟨"continuation", .jsUndefined⟩, ⟨"continuation", .jsUndefined⟩]⟩] =
      [⟨"cont_1_0", "A",
        [⟨⟨"A", 1, 100, 100, none, [⟨"continuation", .jsUndefined⟩, ⟨"continuation", .jsUndefined⟩]⟩,
          ⟨"continuation", .jsUndefined⟩, 0⟩,
         ⟨⟨"A", 1, 100, 100, none, [⟨"continuation", .jsUndefined⟩, ⟨"continuation", .jsUndefined⟩]⟩,
          ⟨"continuation", .jsUndefined⟩, 1⟩]⟩] := by rfl
  refine ⟨h, ?_⟩
  intro q hq
  rw [h, List.mem_singleton] at hq
  subst hq
  decide

/-- Witness for `orphan_continuation_amended`: clause (a) at a one-page input
whose only detection is a lone continuation (an empty run tail), clause (b)
at a page whose detections are a continuation followed by question `"7"`,
clause (c) at the lone-continuation input. -/
theorem orphan_continuation_amended_witness :
    (∃ q, (processFilePages "A"
        (sortPages [⟨"A", 1, 5, 5, none, [⟨"continuation", .jsUndefined⟩]⟩])).head? = some q ∧
      q ∈ createLogicalQuestions [⟨"A", 1, 5, 5, none, [⟨"continuation", .jsUndefined⟩]⟩] ∧
      q.id = "cont_" ++ toString (1 : Nat) ++ "_" ++ toString (0 : Nat) ∧
      q.fileId = "A" ∧
      q.parts = [⟨⟨"A", 1, 5, 5, none, [⟨"continuation", .jsUndefined⟩]⟩,
        ⟨"continuation", .jsUndefined⟩, 0⟩]) ∧
    (∃ pt tl, (⟨"7", "A",
        [⟨⟨"A", 1, 5, 5, none,
            [⟨"continuation", .jsUndefined⟩, ⟨"7", .jsUndefined⟩]⟩,
          ⟨"7", .jsUndefined⟩, 1⟩]⟩ : LogicalQuestion).parts = pt :: tl ∧
      pt.detection.id ≠ "continuation") ∧
    (∃ q ∈ createLogicalQuestions [⟨"A", 1, 5, 5, none, [⟨"continuation", .jsUndefined⟩]⟩],
      (⟨⟨"A", 1, 5, 5, none, [⟨"continuation", .jsUndefined⟩]⟩, ⟨"continuation", .jsUndefined⟩, 0⟩ :
        QuestionPart) ∈ q.parts) := by
  refine ⟨?_, ?_, ?_⟩
  · exact orphan_continuation_amended.1
      [⟨"A", 1, 5, 5, none, [⟨"continuation", .jsUndefined⟩]⟩] "A"
      [⟨"A", 1, 5, 5, none, [⟨"continuation", .jsUndefined⟩]⟩]
      ⟨"A", 1, 5, 5, none, [⟨"continuation", .jsUndefined⟩]⟩ 0 ⟨"continuation", .jsUndefined⟩
      [] []
      (by
        have h : groupByFile [⟨"A", 1, 5, 5, none, [⟨"continuation", .jsUndefined⟩]⟩] =
            [("A", [⟨"A", 1, 5, 5, none, [⟨"continuation", .jsUndefined⟩]⟩])] := rfl
        rw [h]
        exact List.mem_singleton.mpr rfl)
      (by rfl) (by rfl) (by simp) (Or.inl rfl)
  · exact orphan_continuation_amended.2.1 "A"
      [⟨"A", 1, 5, 5, none, [⟨"continuation", .jsUndefined⟩, ⟨"7", .jsUndefined⟩]⟩]
      ⟨"cont_1_0", "A",
        [⟨⟨"A", 1, 5, 5, none,
            [⟨"continuation", .jsUndefined⟩, ⟨"7", .jsUndefined⟩]⟩,
          ⟨"continuation", .jsUndefined⟩, 0⟩]⟩
      [⟨"7", "A",
        [⟨⟨"A", 1, 5, 5, none,
            [⟨"continuation", .jsUndefined⟩, ⟨"7", .jsUndefined⟩]⟩,
          ⟨"7", .jsUndefined⟩, 1⟩]⟩]
      (by rfl) _ (List.mem_singleton.mpr rfl)
  · exact orphan_continuation_amended.2.2
      [⟨"A", 1, 5, 5, none, [⟨"continuation", .jsUndefined⟩]⟩]
      ⟨"A", 1, 5, 5, none, [⟨"continuation", .jsUndefined⟩]⟩ (by simp)
      0 ⟨"continuation", .jsUndefined⟩ (by simp [List.enum, List.enumFrom])

/-! ### Box Normalizer (C5) -/

/-- C5 (amended): `normalizeBoxes` never raises `MalformedInputError` — no
such failure path exists. On every input on which indexing succeeds (every
array, number or string input) it returns a list of length at least one: an
input whose first element is not an array (a flat rectangle, but also any
malformed first element) is wrapped into a singleton, and an input whose
first element is an array (rectangle-shaped or not) is returned as-is. Its
only failure is the `TypeError` thrown by evaluating `boxes2d[0]` when the
input itself is `undefined` or `null` — a failure about the input as a
whole, not about a malformed first element. -/
theorem normalizeBoxes_amended :
    (∀ b : JVal, b ≠ .jsUndefined → b ≠ .jsNull →
      ∃ ys, normalizeBoxes b = .ok (.arr ys) ∧ 1 ≤ ys.length) ∧
    (∀ (b v : JVal), jsIndex0 b = .ok v → v.isArr = true →
      normalizeBoxes b = .ok b) ∧
    (∀ (b v : JVal), jsIndex0 b = .ok v → v.isArr = false →
      normalizeBoxes b = .ok (.arr [b])) ∧
    (∀ b : JVal, (∃ e, normalizeBoxes b = .error e) ↔
      (b = .jsUndefined ∨ b = .jsNull)) := by
  refine ⟨?_, ?_, ?_, ?_⟩
  · intro b hu hn
    cases b with
    | arr elems =>
      cases elems with
      | nil => exact ⟨[.arr []], rfl, by simp⟩
      | cons x xs =>
        by_cases hx : x.isArr
        · exact ⟨x :: xs, by simp [normalizeBoxes, jsIndex0, hx], by simp⟩
        · exact ⟨[.arr (x :: xs)], by simp [normalizeBoxes, jsIndex0, hx], by simp⟩
    | str s =>
      cases hs : s.data with
      | nil => exact ⟨[.str s], by simp [normalizeBoxes, jsIndex0, hs, JVal.isArr], by simp⟩
      | cons c cl =>
        exact ⟨[.str s], by simp [normalizeBoxes, jsIndex0, hs, JVal.isArr], by simp⟩
    | num n => exact ⟨[.num n], rfl, by simp⟩
    | jsUndefined => exact absurd rfl hu
    | jsNull => exact absurd rfl hn
  · intro b v h hv
    unfold normalizeBoxes
    rw [h]
    simp [hv]
  · intro b v h hv
    unfold normalizeBoxes
    rw [h]
    simp [hv]
  · intro b
    constructor
    · rintro ⟨e, he⟩
      cases b with
      | arr elems =>
        exfalso
        cases elems with
        | nil => simp [normalizeBoxes, jsIndex0, JVal.isArr] at he
        | cons x xs =>
          by_cases hx : x.isArr
          · simp [normalizeBoxes, jsIndex0, hx] at he
          · simp [normalizeBoxes, jsIndex0, hx] at he
      | str s =>
        exfalso
        cases hs : s.data with
        | nil => simp [normalizeBoxes, jsIndex0, hs, JVal.isArr] at he
        | cons c cl => simp [normalizeBoxes, jsIndex0, hs, JVal.isArr] at he
      | num n => exact absurd he (by simp [normalizeBoxes, jsIndex0, JVal.isArr])
      | jsUndefined => exact Or.inl rfl
      | jsNull => exact Or.inr rfl
    · rintro (rfl | rfl)
      · exact ⟨.typeError, rfl⟩
      · exact ⟨.typeError, rfl⟩

/-- C5 counterexample: on an input whose first element is neither a number
nor an array (here a string), `normalizeBoxes` does not fail with
`MalformedInputError` or anything else — it returns normally, wrapping the
malformed value into a singleton list; the only failure the code has is a
`TypeError` on an `undefined` input, unrelated to the first element's shape. -/
theorem normalizeBoxes_counterexample :
    normalizeBoxes (.arr [.str "x"]) = .ok (.arr [.arr [.str "x"]]) ∧
    normalizeBoxes .jsUndefined = .error .typeError :=
  ⟨rfl, rfl⟩

/-- Witness for `normalizeBoxes_amended`: a flat rectangle is wrapped into a
singleton, a nested rectangle list is returned unchanged, and only the
`undefined` input fails. -/
theorem normalizeBoxes_amended_witness :
    (∃ ys, normalizeBoxes (.arr [.num 1, .num 2, .num 3, .num 4]) = .ok (.arr ys) ∧
      1 ≤ ys.length) ∧
    normalizeBoxes (.arr [.arr [.num 0, .num 0, .num 5, .num 5]]) =
      .ok (.arr [.arr [.num 0, .num 0, .num 5, .num 5]]) ∧
    normalizeBoxes (.arr [.num 1, .num 2, .num 3, .num 4]) =
      .ok (.arr [.arr [.num 1, .num 2, .num 3, .num 4]]) ∧
    ((∃ e, normalizeBoxes .jsUndefined = .error e) ↔
      ((.jsUndefined : JVal) = .jsUndefined ∨ (.jsUndefined : JVal) = .jsNull)) :=
  ⟨normalizeBoxes_amended.1 _ (fun h => JVal.noConfusion h) (fun h => JVal.noConfusion h),
   normalizeBoxes_amended.2.1 _ _ rfl rfl,
   normalizeBoxes_amended.2.2.1 _ _ rfl rfl,
   normalizeBoxes_amended.2.2.2 _⟩

/-! ### Canvas Trimmer (C6, C7)

Pixel buffers are embedded as a width, a height and a pixel lookup function
(the `ctx.getImageData` RGBA access pattern `data[(y*w+x)*4 + c]`). -/

/-- One RGBA pixel. -/
structure Pix where
  r : Nat
  g : Nat
  b : Nat
  a : Nat

/-- A rasterized region: `px x y` is the pixel at column `x`, row `y`. -/
structure Img where
  width : Nat
  height : Nat
  px : Nat → Nat → Pix

/-- A bounding box `{x, y, w, h}` as returned by the trimming functions. -/
structure Box where
  x : Nat
  y : Nat
  w : Nat
  h : Nat
deriving DecidableEq

/-- Ink classifier of the first `trimWhitespace` in `src/unnamed/part_001`
(threshold 240, any positive alpha). -/
def isInkA (p : Pix) : Bool :=
  decide (0 < p.a) && (decide (p.r < 240) || decide (p.g < 240) || decide (p.b < 240))

/-- Ink classifier of the second `trimWhitespace` in `src/unnamed/part_001`
(threshold 242, alpha at least 10). -/
def isInkB (p : Pix) : Bool :=
  decide (10 ≤ p.a) && (decide (p.r < 242) || decide (p.g < 242) || decide (p.b < 242))

/-- Ink classifier of `getTrimmedBounds` (threshold 220, alpha above 10). -/
def isInkP (p : Pix) : Bool :=
  decide (10 < p.a) && (decide (p.r < 220) || decide (p.g < 220) || decide (p.b < 220))

/-- `∃ k < n, p (lo + k)`, as a boolean scan (the inner pixel loops). -/
def anyRange (p : Nat → Bool) : Nat → Nat → Bool
  | _, 0 => false
  | lo, n + 1 => p lo || anyRange p (lo + 1) n

/-- `rowHasInk` of the first trimmer: scan the full row `y`. -/
def rowHasInkA (img : Img) (y : Nat) : Bool :=
  anyRange (fun x => isInkA (img.px x y)) 0 img.width

/-- `colHasInk` of the first trimmer: scan column `x` for `yStart ≤ y ≤ yEnd`. -/
def colHasInkA (img : Img) (x yStart yEnd : Nat) : Bool :=
  anyRange (fun y => isInkA (img.px x y)) yStart (yEnd + 1 - yStart)

/-- `rowHasInk` of the second trimmer. -/
def rowHasInkB (img : Img) (y : Nat) : Bool :=
  anyRange (fun x => isInkB (img.px x y)) 0 img.width

/-- `colHasInk` of the second trimmer (scans the full column). -/
def colHasInkB (img : Img) (x : Nat) : Bool :=
  anyRange (fun y => isInkB (img.px x y)) 0 img.height

/-- `rowHasInk` of `getTrimmedBounds`. -/
def rowHasInkP (img : Img) (y : Nat) : Bool :=
  anyRange (fun x => isInkP (img.px x y)) 0 img.width

/-- `colHasInk` of `getTrimmedBounds`. -/
def colHasInkP (img : Img) (x : Nat) : Bool :=
  anyRange (fun y => isInkP (img.px x y)) 0 img.height

/-- `while i < stop && !p i: i++`, with explicit fuel: the first index at or
after `lo` satisfying `p` (bounded by `lo + fuel`). -/
def findFirst (p : Nat → Bool) : Nat → Nat → Nat
  | lo, 0 => lo
  | lo, n + 1 => if p lo then lo else findFirst p (lo + 1) n

/-- `while b > low && !p b: b--` (inclusive index scan of the first trimmer's
bottom/right loops), with explicit fuel. -/
def scanDown (p : Nat → Bool) (low : Nat) : Nat → Nat → Nat
  | b, 0 => b
  | b, n + 1 => if low < b && !p b then scanDown p low (b - 1) n else b

/-- `while b > low && !p (b-1): b--` (exclusive scan of the second trimmer's
bottom/right loops), with explicit fuel. -/
def scanDownExcl (p : Nat → Bool) (low : Nat) : Nat → Nat → Nat
  | b, 0 => b
  | b, n + 1 => if low < b && !p (b - 1) then scanDownExcl p low (b - 1) n else b

/-- `while y < limit && p y: y++` (edge-peel top/left loops), with fuel. -/
def peelUp (p : Nat → Bool) (limit : Nat) : Nat → Nat → Nat
  | y, 0 => y
  | y, n + 1 => if y < limit && p y then peelUp p limit (y + 1) n else y

/-- `while b > limit && b > low && p (b-1): b--` (edge-peel bottom/right
loops), with fuel. -/
def peelDown (p : Nat → Bool) (limit low : Nat) : Nat → Nat → Nat
  | b, 0 => b
  | b, n + 1 => if limit < b && low < b && p (b - 1) then peelDown p limit low (b - 1) n else b

/-- The first `trimWhitespace` of `src/unnamed/part_001` (explicit blank-image
check, inclusive bottom/right scans, `Math.max(1, ·)` extents). -/
def trimWhitespaceA (img : Img) : Box :=
  let w := img.width
  let h := img.height
  if w = 0 ∨ h = 0 then ⟨0, 0, 0, 0⟩
  else
    let top := findFirst (rowHasInkA img) 0 h
    if top = h then ⟨0, 0, w, h⟩
    else
      let bottom := scanDown (rowHasInkA img) top (h - 1) h
      let left := findFirst (fun x => colHasInkA img x top bottom) 0 w
      let right := scanDown (fun x => colHasInkA img x top bottom) left (w - 1) w
      ⟨left, top, max 1 (right + 1 - left), max 1 (bottom + 1 - top)⟩

/-- The second `trimWhitespace` of `src/unnamed/part_001` (no blank-image
check, exclusive bottom/right scans, `Math.max(0, ·)` extents). -/
def trimWhitespaceB (img : Img) : Box :=
  let w := img.width
  let h := img.height
  if w = 0 ∨ h = 0 then ⟨0, 0, 0, 0⟩
  else
    let top := findFirst (rowHasInkB img) 0 h
    let bottom := scanDownExcl (rowHasInkB img) top h h
    let left := findFirst (colHasInkB img) 0 w
    let right := scanDownExcl (colHasInkB img) left w w
    ⟨left, top, right - left, bottom - top⟩

/-- `getTrimmedBounds` ("edge peel") of `src/unnamed/part_001`:
`SAFETY_Y = Math.floor(h * 0.15)`, `SAFETY_X = Math.floor(w * 0.15)`, peeling
each edge inward only while within the safety margin and the edge row/column
still contains ink. -/
def getTrimmedBounds (img : Img) : Box :=
  let w := img.width
  let h := img.height
  if w = 0 ∨ h = 0 then ⟨0, 0, 0, 0⟩
  else
    let sy := 15 * h / 100
    let sx := 15 * w / 100
    let top := peelUp (rowHasInkP img) sy 0 h
    let bottom := peelDown (rowHasInkP img) (h - sy) top h h
    let left := peelUp (colHasInkP img) sx 0 w
    let right := peelDown (colHasInkP img) (w - sx) left w w
    ⟨left, top, right - left, bottom - top⟩

theorem anyRange_false (p : Nat → Bool) (hp : ∀ k, p k = false) :
    ∀ (n lo : Nat), anyRange p lo n = false := by
  intro n
  induction n with
  | zero => intro lo; rfl
  | succ n ih =>
    intro lo
    unfold anyRange
    rw [hp lo, ih (lo + 1)]
    rfl

theorem findFirst_false (p : Nat → Bool) (hp : ∀ k, p k = false) :
    ∀ (fuel lo : Nat), findFirst p lo fuel = lo + fuel := by
  intro fuel
  induction fuel with
  | zero => intro lo; rfl
  | succ n ih =>
    intro lo
    unfold findFirst
    rw [hp lo, if_neg (by simp)]
    rw [ih (lo + 1)]
    omega

theorem scanDownExcl_self (p : Nat → Bool) (low : Nat) (fuel : Nat) :
    scanDownExcl p low low fuel = low := by
  cases fuel with
  | zero => rfl
  | succ n =>
    unfold scanDownExcl
    rw [if_neg (by simp)]

theorem peelUp_le (p : Nat → Bool) (limit : Nat) :
    ∀ (fuel y : Nat), y ≤ limit → peelUp p limit y fuel ≤ limit := by
  intro fuel
  induction fuel with
  | zero => intro y hy; exact hy
  | succ n ih =>
    intro y hy
    unfold peelUp
    by_cases hc : (y < limit && p y) = true
    · rw [if_pos hc]
      exact ih (y + 1) (by simp at hc; omega)
    · rw [if_neg hc]
      exact hy

theorem peelDown_ge (p : Nat → Bool) (limit low : Nat) :
    ∀ (fuel b : Nat), limit ≤ b → limit ≤ peelDown p limit low b fuel := by
  intro fuel
  induction fuel with
  | zero => intro b hb; exact hb
  | succ n ih =>
    intro b hb
    unfold peelDown
    by_cases hc : (limit < b && low < b && p (b - 1)) = true
    · rw [if_pos hc]
      exact ih (b - 1) (by simp at hc; omega)
    · rw [if_neg hc]
      exact hb

theorem peelDown_ge_low (p : Nat → Bool) (limit low : Nat) :
    ∀ (fuel b : Nat), low ≤ b → low ≤ peelDown p limit low b fuel := by
  intro fuel
  induction fuel with
  | zero => intro b hb; exact hb
  | succ n ih =>
    intro b hb
    unfold peelDown
    by_cases hc : (limit < b && low < b && p (b - 1)) = true
    · rw [if_pos hc]
      exact ih (b - 1) (by simp at hc; omega)
    · rw [if_neg hc]
      exact hb

/-- C6 (amended): on a buffer of positive size with no ink pixel, the first
`trimWhitespace` of `src/unnamed/part_001` returns the full buffer bounds
`{0, 0, w, h}`, while the second variant returns the degenerate zero-size box
`{x = w, y = h, w = 0, h = 0}` instead. -/
theorem trim_whitespace_blank_amended (img : Img)
    (hw : 0 < img.width) (hh : 0 < img.height)
    (hA : ∀ x y, isInkA (img.px x y) = false)
    (hB : ∀ x y, isInkB (img.px x y) = false) :
    trimWhitespaceA img = ⟨0, 0, img.width, img.height⟩ ∧
    trimWhitespaceB img = ⟨img.width, img.height, 0, 0⟩ := by
  have hrowA : ∀ y, rowHasInkA img y = false :=
    fun y => anyRange_false _ (fun k => hA k y) _ _
  have hrowB : ∀ y, rowHasInkB img y = false :=
    fun y => anyRange_false _ (fun k => hB k y) _ _
  have hcolB : ∀ x, colHasInkB img x = false :=
    fun x => anyRange_false _ (fun k => hB x k) _ _
  constructor
  · unfold trimWhitespaceA
    rw [if_neg (by omega)]
    rw [findFirst_false _ hrowA, if_pos (by omega)]
  · unfold trimWhitespaceB
    rw [if_neg (by omega)]
    simp only []
    rw [findFirst_false _ hrowB, findFirst_false _ hcolB]
    simp only [Nat.zero_add]
    rw [scanDownExcl_self, scanDownExcl_self]
    simp [Nat.sub_self]

/-- C6 counterexample: on a 2×2 all-white (blank) buffer, the second
`trimWhitespace` of `src/unnamed/part_001` returns the zero-size box
`{x=2, y=2, w=0, h=0}`, not the full buffer bounds `{0, 0, 2, 2}`. -/
theorem trim_whitespace_blank_counterexample :
    trimWhitespaceB ⟨2, 2, fun _ _ => ⟨255, 255, 255, 255⟩⟩ = ⟨2, 2, 0, 0⟩ ∧
    (⟨2, 2, 0, 0⟩ : Box) ≠ ⟨0, 0, 2, 2⟩ :=
  ⟨rfl, by decide⟩

/-- Witness for `trim_whitespace_blank_amended` on a 3×2 all-white buffer. -/
theorem trim_whitespace_blank_amended_witness :
    trimWhitespaceA ⟨3, 2, fun _ _ => ⟨255, 255, 255, 255⟩⟩ = ⟨0, 0, 3, 2⟩ ∧
    trimWhitespaceB ⟨3, 2, fun _ _ => ⟨255, 255, 255, 255⟩⟩ = ⟨3, 2, 0, 0⟩ :=
  trim_whitespace_blank_amended ⟨3, 2, fun _ _ => ⟨255, 255, 255, 255⟩⟩
    (by decide) (by decide) (fun _ _ => rfl) (fun _ _ => rfl)

/-- C7: the edge peel never removes more than `floor(0.15·h)` rows from the
top or bottom nor more than `floor(0.15·w)` columns from the left or right:
the returned box satisfies `y ≤ ⌊0.15h⌋`, `x ≤ ⌊0.15w⌋`,
`y + h' ≥ h - ⌊0.15h⌋` and `x + w' ≥ w - ⌊0.15w⌋`, for every pixel buffer of
positive dimensions (in particular ones with ink at every scanned row and
column). -/
theorem edge_peel_bound (img : Img) (hw : 0 < img.width) (hh : 0 < img.height) :
    (getTrimmedBounds img).y ≤ 15 * img.height / 100 ∧
    (getTrimmedBounds img).x ≤ 15 * img.width / 100 ∧
    img.height - 15 * img.height / 100 ≤ (getTrimmedBounds img).y + (getTrimmedBounds img).h ∧
    img.width - 15 * img.width / 100 ≤ (getTrimmedBounds img).x + (getTrimmedBounds img).w := by
  have hsy : 15 * img.height / 100 ≤ img.height := by omega
  have hsx : 15 * img.width / 100 ≤ img.width := by omega
  have htop : peelUp (rowHasInkP img) (15 * img.height / 100) 0 img.height ≤
      15 * img.height / 100 :=
    peelUp_le _ _ _ _ (Nat.zero_le _)
  have hleft : peelUp (colHasInkP img) (15 * img.width / 100) 0 img.width ≤
      15 * img.width / 100 :=
    peelUp_le _ _ _ _ (Nat.zero_le _)
  have hbot1 : img.height - 15 * img.height / 100 ≤
      peelDown (rowHasInkP img) (img.height - 15 * img.height / 100)
        (peelUp (rowHasInkP img) (15 * img.height / 100) 0 img.height)
        img.height img.height :=
    peelDown_ge _ _ _ _ _ (by omega)
  have hbot2 : peelUp (rowHasInkP img) (15 * img.height / 100) 0 img.height ≤
      peelDown (rowHasInkP img) (img.height - 15 * img.height / 100)
        (peelUp (rowHasInkP img) (15 * img.height / 100) 0 img.height)
        img.height img.height :=
    peelDown_ge_low _ _ _ _ _ (by omega)
  have hrt1 : img.width - 15 * img.width / 100 ≤
      peelDown (colHasInkP img) (img.width - 15 * img.width / 100)
        (peelUp (colHasInkP img) (15 * img.width / 100) 0 img.width)
        img.width img.width :=
    peelDown_ge _ _ _ _ _ (by omega)
  have hrt2 : peelUp (colHasInkP img) (15 * img.width / 100) 0 img.width ≤
      peelDown (colHasInkP img) (img.width - 15 * img.width / 100)
        (peelUp (colHasInkP img) (15 * img.width / 100) 0 img.width)
        img.width img.width :=
    peelDown_ge_low _ _ _ _ _ (by omega)
  unfold getTrimmedBounds
  rw [if_neg (by omega)]
  simp only []
  refine ⟨htop, hleft, by omega, by omega⟩

/-- Witness for `edge_peel_bound` on a 10×10 all-black buffer (ink at every
row and column). -/
theorem edge_peel_bound_witness :
    (getTrimmedBounds ⟨10, 10, fun _ _ => ⟨0, 0, 0, 255⟩⟩).y ≤ 15 * 10 / 100 ∧
    (getTrimmedBounds ⟨10, 10, fun _ _ => ⟨0, 0, 0, 255⟩⟩).x ≤ 15 * 10 / 100 ∧
    10 - 15 * 10 / 100 ≤ (getTrimmedBounds ⟨10, 10, fun _ _ => ⟨0, 0, 0, 255⟩⟩).y +
      (getTrimmedBounds ⟨10, 10, fun _ _ => ⟨0, 0, 0, 255⟩⟩).h ∧
    10 - 15 * 10 / 100 ≤ (getTrimmedBounds ⟨10, 10, fun _ _ => ⟨0, 0, 0, 255⟩⟩).x +
      (getTrimmedBounds ⟨10, 10, fun _ _ => ⟨0, 0, 0, 255⟩⟩).w :=
  edge_peel_bound ⟨10, 10, fun _ _ => ⟨0, 0, 0, 255⟩⟩ (by decide) (by decide)


/-! ### Chunked store (C3, C4, C10)

IndexedDB compares string keys code unit by code unit, so JavaScript string
keys are embedded as lists of UTF-16 code units: `'#' = 35`, `'p' = 112`,
`'q' = 113`, `'￿' = 65535`. -/

/-- A JavaScript string as its sequence of UTF-16 code units. -/
abbrev Units := List Nat

/-- Lexicographic order on code-unit sequences (the IndexedDB key order for
strings). -/
def leUnits : Units → Units → Bool
  | [], _ => true
  | _ :: _, [] => false
  | a :: as, b :: bs => if a < b then true else if b < a then false else leUnits as bs

/-- `getChunkKey(examId, type, fileName, id)` = `"{examId}#{type}#{fileName}#{id}"`. -/
def getChunkKey (examId ty fileName localId : Units) : Units :=
  examId ++ [35] ++ ty ++ [35] ++ fileName ++ [35] ++ localId

/-- The chunks object store: key to stored value. -/
def ChunkStore := Units → Option String

/-- `chunksStore.put(v, k)`. -/
def putChunk (s : ChunkStore) (k : Units) (v : String) : ChunkStore :=
  fun k' => if k' = k then some v else s k'

/-- `getChunkData`: point lookup in the chunks store. -/
def getChunkData (s : ChunkStore) (k : Units) : Option String := s k

/-- `chunkStore.delete(IDBKeyRange.bound(id + "#", id + "#￿"))` from
`deleteExamResult`: removes every key in the closed range. -/
def deleteExamChunks (s : ChunkStore) (examId : Units) : ChunkStore :=
  fun k =>
    if leUnits (examId ++ [35]) k && leUnits k (examId ++ [35, 65535]) then none else s k

/-- `HistoryMetadata` (the Index record). -/
structure HistoryMetadata where
  id : Units
  name : String
  timestamp : Nat
  pageCount : Nat

/-- A minimal `QuestionImage` skeleton record. -/
structure QuestionImage where
  id : String
  fileName : String
  pageNumber : Nat
  dataUrl : Option String
  originalDataUrl : Option String

/-- The Details record; `rawPages`/`questions` may be absent (JS `undefined`)
on corrupted records, which `loadExamResult` defaults with `|| []`. -/
structure ExamDetails where
  id : Units
  rawPages : Option (List DebugPageData)
  questions : Option (List QuestionImage)

/-- The three object stores of `MathSplitterDB`. -/
structure Database where
  index : Units → Option HistoryMetadata
  details : Units → Option ExamDetails
  chunks : ChunkStore

/-- What `loadExamResult` resolves with when it finds the exam. -/
structure LoadResult where
  name : String
  rawPages : List DebugPageData
  questions : List QuestionImage

/-- `loadExamResult`: reads Index and Details; resolves non-null only when
both records exist (`if (meta && details)`), defaulting absent
`rawPages`/`questions` fields to empty lists. -/
def loadExamResult (db : Database) (id : Units) : Option LoadResult :=
  match db.index id, db.details id with
  | some meta, some det => some ⟨meta.name, det.rawPages.getD [], det.questions.getD []⟩
  | _, _ => none

/-- `deleteExamResult`: deletes the Index record, the Details record and the
chunk-key range `[id#, id#￿]` in one transaction. -/
def deleteExamResult (db : Database) (id : Units) : Database :=
  { index := fun k => if k = id then none else db.index k
    details := fun k => if k = id then none else db.details k
    chunks := deleteExamChunks db.chunks id }

/-- A key actually written by the code: `"{examId}#{kind}#{fileName}#{localId}"`
with `kind ∈ {'p', 'q'}` and an exam id containing no `'#'`. -/
def WfChunkKey (k : Units) : Prop :=
  ∃ examId ty fn lid, (35 : Nat) ∉ examId ∧ (ty = [112] ∨ ty = [113]) ∧
    k = getChunkKey examId ty fn lid

theorem leUnits_self_append : ∀ (p rest : Units), leUnits p (p ++ rest) = true := by
  intro p
  induction p with
  | nil => intro rest; rfl
  | cons a as ih =>
    intro rest
    show (if a < a then true else if a < a then false else leUnits as (as ++ rest)) = true
    rw [if_neg (Nat.lt_irrefl a), if_neg (Nat.lt_irrefl a)]
    exact ih rest

theorem leUnits_append_cancel : ∀ (p x y : Units),
    leUnits (p ++ x) (p ++ y) = leUnits x y := by
  intro p
  induction p with
  | nil => intro x y; rfl
  | cons a as ih =>
    intro x y
    show (if a < a then true else if a < a then false else leUnits (as ++ x) (as ++ y)) =
      leUnits x y
    rw [if_neg (Nat.lt_irrefl a), if_neg (Nat.lt_irrefl a)]
    exact ih x y

theorem leUnits_range_split : ∀ (p k ms : Units),
    leUnits p k = true → leUnits k (p ++ ms) = true →
    ∃ rest, k = p ++ rest ∧ leUnits rest ms = true := by
  intro p
  induction p with
  | nil => intro k ms _ h2; exact ⟨k, rfl, h2⟩
  | cons a as ih =>
    intro k ms h1 h2
    cases k with
    | nil => cases h1
    | cons b bs =>
      rcases Nat.lt_trichotomy a b with hab | hab | hab
      · exfalso
        have : leUnits (b :: bs) (a :: (as ++ ms)) = false := by
          unfold leUnits
          rw [if_neg (by omega), if_pos hab]
        rw [List.cons_append] at h2
        rw [this] at h2
        cases h2
      · subst hab
        have h1' : leUnits as bs = true := by
          unfold leUnits at h1
          rwa [if_neg (Nat.lt_irrefl a), if_neg (Nat.lt_irrefl a)] at h1
        have h2' : leUnits bs (as ++ ms) = true := by
          rw [List.cons_append] at h2
          unfold leUnits at h2
          rwa [if_neg (Nat.lt_irrefl a), if_neg (Nat.lt_irrefl a)] at h2
        obtain ⟨rest, rfl, hrest⟩ := ih bs ms h1' h2'
        exact ⟨rest, rfl, hrest⟩
      · exfalso
        have : leUnits (a :: as) (b :: bs) = false := by
          unfold leUnits
          rw [if_neg (by omega), if_pos hab]
        rw [this] at h1
        cases h1

theorem hash_split_unique : ∀ (a b x y : Units), (35 : Nat) ∉ a → (35 : Nat) ∉ b →
    a ++ [35] ++ x = b ++ [35] ++ y → a = b ∧ x = y := by
  intro a
  induction a with
  | nil =>
    intro b x y _ hb heq
    cases b with
    | nil => exact ⟨rfl, by simpa using heq⟩
    | cons c cs =>
      exfalso
      simp only [List.nil_append, List.cons_append, List.cons.injEq] at heq
      exact hb (heq.1 ▸ List.mem_cons_self _ _)
  | cons u us ih =>
    intro b x y ha hb heq
    cases b with
    | nil =>
      exfalso
      simp only [List.nil_append, List.cons_append, List.cons.injEq] at heq
      exact ha (heq.1 ▸ List.mem_cons_self _ _)
    | cons c cs =>
      simp only [List.cons_append, List.cons.injEq] at heq
      obtain ⟨huc, heq'⟩ := heq
      subst huc
      have ha' : (35 : Nat) ∉ us := fun h => ha (List.mem_cons_of_mem _ h)
      have hb' : (35 : Nat) ∉ cs := fun h => hb (List.mem_cons_of_mem _ h)
      obtain ⟨h1, h2⟩ := ih cs x y ha' hb' heq'
      exact ⟨by rw [h1], h2⟩

/-- C3: after `deleteExamResult examId`, no key beginning with `"{examId}#"`
is retrievable from the chunks store (for a store populated only with keys of
the documented shape), and keys of other exams (whose ids differ and contain
no `'#'`) are unaffected. -/
theorem delete_prefix_complete (db : Database) (examId : Units)
    (hid : (35 : Nat) ∉ examId)
    (hwf : ∀ k, db.chunks k ≠ none → WfChunkKey k) :
    (∀ rest, getChunkData (deleteExamResult db examId).chunks (examId ++ [35] ++ rest) = none) ∧
    (∀ otherId rest, otherId ≠ examId → (35 : Nat) ∉ otherId →
      getChunkData (deleteExamResult db examId).chunks (otherId ++ [35] ++ rest) =
        getChunkData db.chunks (otherId ++ [35] ++ rest)) := by
  constructor
  · intro rest
    show deleteExamChunks db.chunks examId (examId ++ [35] ++ rest) = none
    unfold deleteExamChunks
    by_cases hin : (leUnits (examId ++ [35]) (examId ++ [35] ++ rest) &&
        leUnits (examId ++ [35] ++ rest) (examId ++ [35, 65535])) = true
    · rw [if_pos hin]
    · rw [if_neg hin]
      cases hs : db.chunks (examId ++ [35] ++ rest) with
      | none => rfl
      | some v =>
        exfalso
        apply hin
        obtain ⟨eid, ty, fn, lid, heid, hty, hkey⟩ :=
          hwf (examId ++ [35] ++ rest) (by rw [hs]; exact fun h => Option.noConfusion h)
        have hkey' : examId ++ [35] ++ rest = eid ++ [35] ++ (ty ++ [35] ++ fn ++ [35] ++ lid) := by
          rw [hkey]; unfold getChunkKey; simp [List.append_assoc]
        obtain ⟨heq1, heq2⟩ := hash_split_unique examId eid rest
          (ty ++ [35] ++ fn ++ [35] ++ lid) hid heid hkey'
        have hle : leUnits rest [65535] = true := by
          rcases hty with h | h <;> subst h <;> rw [heq2] <;>
            simp [leUnits, List.cons_append]
        have h1 : leUnits (examId ++ [35]) (examId ++ [35] ++ rest) = true :=
          leUnits_self_append (examId ++ [35]) rest
        have h2 : leUnits (examId ++ [35] ++ rest) (examId ++ [35, 65535]) = true := by
          have hassoc : examId ++ [35, 65535] = (examId ++ [35]) ++ [65535] := by simp
          rw [hassoc, leUnits_append_cancel]
          exact hle
        rw [h1, h2]
        rfl
  · intro otherId rest hne hno
    show deleteExamChunks db.chunks examId (otherId ++ [35] ++ rest) = _
    unfold deleteExamChunks
    rw [if_neg ?_]
    · rfl
    · intro hin
      rw [Bool.and_eq_true] at hin
      have hsplit := leUnits_range_split (examId ++ [35]) (otherId ++ [35] ++ rest) [65535]
        hin.1 (by
          have : examId ++ [35, 65535] = (examId ++ [35]) ++ [65535] := by simp
          rw [← this]
          exact hin.2)
      obtain ⟨r, hr, _⟩ := hsplit
      have : otherId ++ [35] ++ rest = examId ++ [35] ++ r := by
        rw [hr, List.append_assoc]
      exact hne (hash_split_unique otherId examId rest r hno hid this).1

/-- Keys and store used to witness `delete_prefix_complete`: exam `[1]` owns a
`'p'` chunk, exam `[2]` owns a `'q'` chunk. -/
def sampleChunks : ChunkStore :=
  putChunk (putChunk (fun _ => none) (getChunkKey [1] [112] [7] [2]) "v1")
    (getChunkKey [2] [113] [7] [3]) "v2"

def sampleDb : Database := ⟨fun _ => none, fun _ => none, sampleChunks⟩

theorem sampleDb_wf : ∀ k, sampleDb.chunks k ≠ none → WfChunkKey k := by
  intro k h
  show WfChunkKey k
  by_cases h2 : k = getChunkKey [2] [113] [7] [3]
  · exact ⟨[2], [113], [7], [3], by decide, Or.inr rfl, h2⟩
  · by_cases h1 : k = getChunkKey [1] [112] [7] [2]
    · exact ⟨[1], [112], [7], [2], by decide, Or.inl rfl, h1⟩
    · exfalso
      apply h
      show sampleChunks k = none
      unfold sampleChunks putChunk
      rw [if_neg h2, if_neg h1]

/-- Witness for `delete_prefix_complete`: deleting exam `[1]` removes its
chunk key and leaves exam `[2]`'s chunk lookup unchanged. -/
theorem delete_prefix_complete_witness :
    getChunkData (deleteExamResult sampleDb [1]).chunks
      ([1] ++ [35] ++ ([112] ++ [35] ++ [7] ++ [35] ++ [2])) = none ∧
    getChunkData (deleteExamResult sampleDb [1]).chunks
      ([2] ++ [35] ++ ([113] ++ [35] ++ [7] ++ [35] ++ [3])) =
      getChunkData sampleDb.chunks ([2] ++ [35] ++ ([113] ++ [35] ++ [7] ++ [35] ++ [3])) :=
  ⟨(delete_prefix_complete sampleDb [1] (by decide) sampleDb_wf).1
      ([112] ++ [35] ++ [7] ++ [35] ++ [2]),
   (delete_prefix_complete sampleDb [1] (by decide) sampleDb_wf).2
      [2] ([113] ++ [35] ++ [7] ++ [35] ++ [3]) (by decide) (by decide)⟩

/-- C4 counterexample: a database whose Index has an entry for exam `[9]` but
whose Details store is empty. `loadExamResult` returns `none` (a not-found
result), not a record with the exam's name and empty collections. -/
theorem load_missing_details_counterexample :
    loadExamResult
      ⟨fun k => if k = [9] then some ⟨[9], "exam", 0, 0⟩ else none,
       fun _ => none, fun _ => none⟩ [9] = none ∧
    (⟨fun k => if k = [9] then some ⟨[9], "exam", 0, 0⟩ else none,
       fun _ => none, fun _ => none⟩ : Database).index [9] = some ⟨[9], "exam", 0, 0⟩ := by
  constructor
  · show loadExamResult _ [9] = none
    unfold loadExamResult
    simp
  · simp

/-- C4 (amended): when the Details record is missing, `loadExamResult`
returns a not-found result (`null`), even if the Index record exists; the
empty-collections degradation only applies one level down, when the Details
record exists but its `rawPages`/`questions` fields are absent. -/
theorem load_missing_details_amended (db : Database) (id : Units) :
    (db.details id = none → loadExamResult db id = none) ∧
    (∀ meta det, db.index id = some meta → db.details id = some det →
      det.rawPages = none → det.questions = none →
      loadExamResult db id = some ⟨meta.name, [], []⟩) := by
  constructor
  · intro h
    unfold loadExamResult
    rw [h]
    cases db.index id <;> rfl
  · intro meta det hm hd hr hq
    unfold loadExamResult
    rw [hm, hd]
    simp [hr, hq]

/-- Witness for `load_missing_details_amended` on concrete databases. -/
theorem load_missing_details_amended_witness :
    loadExamResult
      ⟨fun k => if k = [9] then some ⟨[9], "exam", 0, 0⟩ else none,
       fun _ => none, fun _ => none⟩ [9] = none ∧
    loadExamResult
      ⟨fun k => if k = [9] then some ⟨[9], "exam", 0, 0⟩ else none,
       fun k => if k = [9] then some ⟨[9], none, none⟩ else none,
       fun _ => none⟩ [9] = some ⟨"exam", [], []⟩ :=
  ⟨(load_missing_details_amended
      ⟨fun k => if k = [9] then some ⟨[9], "exam", 0, 0⟩ else none,
       fun _ => none, fun _ => none⟩ [9]).1 rfl,
   (load_missing_details_amended
      ⟨fun k => if k = [9] then some ⟨[9], "exam", 0, 0⟩ else none,
       fun k => if k = [9] then some ⟨[9], none, none⟩ else none,
       fun _ => none⟩ [9]).2 ⟨[9], "exam", 0, 0⟩ ⟨[9], none, none⟩ (by simp) (by simp) rfl rfl⟩

/-- Outcome of one IndexedDB `get` request: `onsuccess` with
`request.result` (the stored value, or `undefined` when the key is absent)
or `onerror`. -/
inductive ReqOutcome (α : Type) where
  | success (v : α)
  | failure

/-- The settled state of the promise returned by `getChunkData`. -/
inductive PromiseResult (α : Type) where
  | resolved (v : α)
  | rejected
deriving DecidableEq

/-- How `getChunkData` settles the inner `get`-request promise: `onsuccess`
resolves with `request.result`; `onerror` also resolves — with `undefined` —
rather than rejecting ("fail gracefully"). -/
def getChunkDataPromise (r : ReqOutcome (Option String)) : PromiseResult (Option String) :=
  match r with
  | .success v => .resolved v
  | .failure => .resolved none

/-- Outcome of one whole `getChunkData` call: the awaited `openDB()` can
reject (when `indexedDB.open` fires `onerror`), `db.transaction` can throw
inside the promise executor, or — once both have succeeded — the `get`
request fires one of its two handlers. -/
inductive StoreCallOutcome where
  | openFailed
  | txThrew
  | getSettled (r : ReqOutcome (Option String))

/-- The promise returned by `getChunkData` (an `async` function): an
`openDB()` rejection is propagated by `await`, a throwing `db.transaction`
rejects the constructed promise, and otherwise the settlement is that of the
inner `get` request. -/
def getChunkDataOverall : StoreCallOutcome → PromiseResult (Option String)
  | .openFailed => .rejected
  | .txThrew => .rejected
  | .getSettled r => getChunkDataPromise r

/-- C10 counterexample: when `openDB()` fails, the promise returned by
`getChunkData` rejects — it does not resolve with `absent`. -/
theorem getChunkData_rejects_counterexample :
    getChunkDataOverall .openFailed = .rejected ∧
    (PromiseResult.rejected : PromiseResult (Option String)) ≠ .resolved none :=
  ⟨rfl, by decide⟩

/-- C10 (amended): once `openDB()` has resolved and the transaction was
created, the promise never rejects — a settled lookup resolves with the
stored value (`none` for a missing key), and an internal read error also
resolves with `none`, indistinguishable from a missing chunk. The returned
promise rejects exactly when the awaited `openDB()` fails or
`db.transaction` throws. -/
theorem getChunkData_settlement_amended :
    (∀ r, ∃ v, getChunkDataOverall (.getSettled r) = .resolved v) ∧
    (∀ (s : ChunkStore) (k : Units),
      getChunkDataOverall (.getSettled (.success (getChunkData s k))) =
        .resolved (getChunkData s k)) ∧
    getChunkDataOverall (.getSettled .failure) =
      getChunkDataOverall (.getSettled (.success none)) ∧
    (∀ o, getChunkDataOverall o = .rejected ↔ (o = .openFailed ∨ o = .txThrew)) := by
  refine ⟨?_, fun s k => rfl, rfl, ?_⟩
  · intro r
    cases r with
    | success v => exact ⟨v, rfl⟩
    | failure => exact ⟨none, rfl⟩
  · intro o
    cases o with
    | openFailed => exact ⟨fun _ => Or.inl rfl, fun _ => rfl⟩
    | txThrew => exact ⟨fun _ => Or.inr rfl, fun _ => rfl⟩
    | getSettled r =>
      constructor
      · intro h
        cases r with
        | success v =>
          exact absurd h (by simp [getChunkDataOverall, getChunkDataPromise])
        | failure =>
          exact absurd h (by simp [getChunkDataOverall, getChunkDataPromise])
      · intro h
        rcases h with h | h <;> exact StoreCallOutcome.noConfusion h

/-! ### Worker pool (C8, C9)

Bookkeeping of `WorkerPool` (`src/services/storageService.ts`): tasks carry
numeric ids; `running` holds the ids currently processed by BUSY workers, so
`running.length` is `activeCount` (the two are updated together in the
source); `workers` is the number of created workers; `resolved`/`rejected`
record how task promises were settled (results are `Option Nat` — a
`QuestionImage` or `null`). -/

structure PoolState where
  queue : List Nat
  running : List Nat
  workers : Nat
  resolved : List (Nat × Option Nat)
  rejected : List Nat

/-- The `while` loop of `processQueue`: while `activeCount < concurrency` and
the queue is non-empty, `getFreeWorker()` grows the worker set to the
concurrency ceiling and picks a FREE worker (one exists iff fewer workers are
BUSY than exist); the head job is shifted and dispatched. Returns the final
`(queue, running, workers)`. -/
def dispatchLoop (c : Nat) : List Nat → List Nat → Nat → List Nat × List Nat × Nat
  | [], running, workers => ([], running, workers)
  | t :: rest, running, workers =>
    if running.length < c then
      if running.length < max workers c then
        dispatchLoop c rest (running ++ [t]) (max workers c)
      else (t :: rest, running, max workers c)
    else (t :: rest, running, workers)

/-- `processQueue`. -/
def processQueue (c : Nat) (s : PoolState) : PoolState :=
  { queue := (dispatchLoop c s.queue s.running s.workers).1
    running := (dispatchLoop c s.queue s.running s.workers).2.1
    workers := (dispatchLoop c s.queue s.running s.workers).2.2
    resolved := s.resolved
    rejected := s.rejected }

/-- `exec`: push the job on the queue, then `processQueue`. -/
def execTask (c : Nat) (s : PoolState) (t : Nat) : PoolState :=
  processQueue c { s with queue := s.queue ++ [t] }

/-- The message handler for a finished task `t`: `activeCount--`, the worker
is marked FREE, the promise is resolved with the result on success and with
`null` on a worker-side error (never rejected), then `processQueue()` runs
again. -/
def completeTask (c : Nat) (s : PoolState) (t : Nat) (res : Option Nat) : PoolState :=
  processQueue c { s with running := s.running.erase t, resolved := s.resolved ++ [(t, res)] }

/-- Pool events with a fixed concurrency `c`: a task submission, or a worker
reporting completion (success or failure) of an in-flight task. -/
inductive PoolStep (c : Nat) : PoolState → PoolState → Prop
  | exec (s : PoolState) (t : Nat) : PoolStep c s (execTask c s t)
  | complete (s : PoolState) (t : Nat) (res : Option Nat) (ht : t ∈ s.running) :
      PoolStep c s (completeTask c s t res)

/-- The freshly constructed pool: empty queue, no active work, no workers. -/
def initPool : PoolState := ⟨[], [], 0, [], []⟩

/-- States reachable from the fresh pool under concurrency `c`. -/
def PoolReachable (c : Nat) (s : PoolState) : Prop :=
  Relation.ReflTransGen (PoolStep c) initPool s

theorem dispatchLoop_running_le (c : Nat) :
    ∀ (q running : List Nat) (workers : Nat), running.length ≤ c →
      (dispatchLoop c q running workers).2.1.length ≤ c := by
  intro q
  induction q with
  | nil => intro running workers h; exact h
  | cons t rest ih =>
    intro running workers h
    unfold dispatchLoop
    by_cases h1 : running.length < c
    · rw [if_pos h1]
      by_cases h2 : running.length < max workers c
      · rw [if_pos h2]
        exact ih (running ++ [t]) (max workers c) (by simp; omega)
      · rw [if_neg h2]
        exact h
    · rw [if_neg h1]
      exact h

/-- C8: under a fixed concurrency `N`, `activeCount` (the number of BUSY
workers) never exceeds `N` in any reachable pool state, however many tasks
are submitted. -/
theorem pool_concurrency_ceiling (c : Nat) (s : PoolState)
    (h : PoolReachable c s) : s.running.length ≤ c := by
  induction h with
  | refl => exact Nat.zero_le c
  | tail hsteps hstep ih =>
    cases hstep with
    | exec t =>
      exact dispatchLoop_running_le c _ _ _ ih
    | complete t res ht =>
      exact dispatchLoop_running_le c _ _ _
        (le_trans (List.Sublist.length_le (List.erase_sublist _ _)) ih)

/-- Witness for `pool_concurrency_ceiling`: three tasks submitted to a pool
with concurrency 2. -/
theorem pool_concurrency_ceiling_witness :
    (execTask 2 (execTask 2 (execTask 2 initPool 0) 1) 2).running.length ≤ 2 :=
  pool_concurrency_ceiling 2 _
    (Relation.ReflTransGen.tail
      (Relation.ReflTransGen.tail
        (Relation.ReflTransGen.tail Relation.ReflTransGen.refl
          (PoolStep.exec initPool 0))
        (PoolStep.exec (execTask 2 initPool 0) 1))
      (PoolStep.exec (execTask 2 (execTask 2 initPool 0) 1) 2))

theorem dispatchLoop_queue_subset (c : Nat) :
    ∀ (q running : List Nat) (workers : Nat) (x : Nat),
      x ∈ (dispatchLoop c q running workers).1 → x ∈ q := by
  intro q
  induction q with
  | nil => intro running workers x h; exact h
  | cons t rest ih =>
    intro running workers x h
    unfold dispatchLoop at h
    by_cases h1 : running.length < c
    · rw [if_pos h1] at h
      by_cases h2 : running.length < max workers c
      · rw [if_pos h2] at h
        exact List.mem_cons_of_mem _ (ih (running ++ [t]) (max workers c) x h)
      · rw [if_neg h2] at h
        exact h
    · rw [if_neg h1] at h
      exact h

theorem dispatchLoop_queue_len_le (c : Nat) :
    ∀ (q running : List Nat) (workers : Nat),
      (dispatchLoop c q running workers).1.length ≤ q.length := by
  intro q
  induction q with
  | nil => intro running workers; exact Nat.le_refl 0
  | cons t rest ih =>
    intro running workers
    unfold dispatchLoop
    by_cases h1 : running.length < c
    · rw [if_pos h1]
      by_cases h2 : running.length < max workers c
      · rw [if_pos h2]
        exact Nat.le_succ_of_le (ih (running ++ [t]) (max workers c))
      · rw [if_neg h2]
    · rw [if_neg h1]

theorem dispatchLoop_progress (c : Nat) (t : Nat) (rest running : List Nat)
    (workers : Nat) (hr : running.length < c) :
    (dispatchLoop c (t :: rest) running workers).1.length < (t :: rest).length := by
  unfold dispatchLoop
  rw [if_pos hr, if_pos (lt_of_lt_of_le hr (le_max_right workers c))]
  exact Nat.lt_succ_of_le (dispatchLoop_queue_len_le c rest _ _)

theorem dispatchLoop_workers_mono (c : Nat) :
    ∀ (q running : List Nat) (workers : Nat),
      workers ≤ (dispatchLoop c q running workers).2.2 := by
  intro q
  induction q with
  | nil => intro running workers; exact Nat.le_refl _
  | cons t rest ih =>
    intro running workers
    unfold dispatchLoop
    by_cases h1 : running.length < c
    · rw [if_pos h1]
      by_cases h2 : running.length < max workers c
      · rw [if_pos h2]
        exact le_trans (le_max_left workers c) (ih (running ++ [t]) (max workers c))
      · rw [if_neg h2]
        exact le_max_left workers c
    · rw [if_neg h1]

/-- C9: when a worker reports failure for an in-flight task `t`, the pool
resolves `t`'s promise with `null` and rejects nothing; `t` is never
re-enqueued; the worker is freed, not terminated (the worker count does not
drop), and dispatching continues — if any task is queued, one is dispatched
immediately using the freed capacity. -/
theorem worker_failure_semantics (c : Nat) (s : PoolState) (t : Nat)
    (ht : t ∈ s.running) (hq : t ∉ s.queue) (hc : s.running.length ≤ c) :
    ((t, (none : Option Nat)) ∈ (completeTask c s t none).resolved) ∧
    (completeTask c s t none).rejected = s.rejected ∧
    t ∉ (completeTask c s t none).queue ∧
    s.workers ≤ (completeTask c s t none).workers ∧
    (s.queue ≠ [] → (completeTask c s t none).queue.length < s.queue.length) := by
  have herase : (s.running.erase t).length < c := by
    have h1 : (s.running.erase t).length = s.running.length - 1 :=
      List.length_erase_of_mem ht
    have h2 : 0 < s.running.length := List.length_pos.mpr (List.ne_nil_of_mem ht)
    omega
  refine ⟨?_, rfl, ?_, ?_, ?_⟩
  · show (t, (none : Option Nat)) ∈ s.resolved ++ [(t, none)]
    exact List.mem_append_right _ (List.mem_singleton.mpr rfl)
  · intro hmem
    exact hq (dispatchLoop_queue_subset c s.queue _ _ t hmem)
  · exact dispatchLoop_workers_mono c s.queue _ _
  · intro hne
    cases hqq : s.queue with
    | nil => exact absurd hqq hne
    | cons u us =>
      show (dispatchLoop c s.queue (s.running.erase t) s.workers).1.length < (u :: us).length
      rw [hqq]
      exact dispatchLoop_progress c u us _ s.workers herase

/-- Witness for `worker_failure_semantics`: concurrency 1, task 10 in flight,
task 11 queued; task 10 fails. -/
theorem worker_failure_semantics_witness :
    ((10, (none : Option Nat)) ∈ (completeTask 1 ⟨[11], [10], 1, [], []⟩ 10 none).resolved) ∧
    (completeTask 1 ⟨[11], [10], 1, [], []⟩ 10 none).rejected =
      (⟨[11], [10], 1, [], []⟩ : PoolState).rejected ∧
    10 ∉ (completeTask 1 ⟨[11], [10], 1, [], []⟩ 10 none).queue ∧
    (⟨[11], [10], 1, [], []⟩ : PoolState).workers ≤
      (completeTask 1 ⟨[11], [10], 1, [], []⟩ 10 none).workers ∧
    ((⟨[11], [10], 1, [], []⟩ : PoolState).queue ≠ [] →
      (completeTask 1 ⟨[11], [10], 1, [], []⟩ 10 none).queue.length <
        (⟨[11], [10], 1, [], []⟩ : PoolState).queue.length) :=
  worker_failure_semantics 1 ⟨[11], [10], 1, [], []⟩ 10
    (by decide) (by decide) (by decide)

end PdfSplit
